import Mathlib

set_option maxRecDepth 100000
set_option maxHeartbeats 2000000

/-!
Verification of the SmartFilter query-to-filter resolution pipeline.

The development shallowly embeds the post-processing pipeline of the
storefront filter app: the fuzzy matcher (`app/utils/fuzzyMatch.js`), the
sanitize and merge passes and the LLM result handling of the resolution
engine (`ai-filter.server.js`), the bounded LRU/TTL query cache
(`queryCache.js`) and the sliding-window rate limiter (`rateLimiter.js`).

Conventions of the embedding:
* JavaScript objects with optional keys become structures of `Option`
  fields; a missing, `undefined` or `null` key is `none`.
* JavaScript numbers are modelled as `ℚ` (for filter prices) or `ℤ`
  (for timestamps and counters); `Date.now()` becomes an explicit
  `now : ℤ` argument threaded through the stateful operations.
* A JavaScript `Map` becomes an association list in insertion order,
  which is exactly the iteration order the source relies on for LRU
  eviction.
* A price bound coming out of the model can be a number or a string;
  a string is represented by the result of `parseFloat` on it: either
  a parsed value (`RawBound.strNum`) or a failed parse (`RawBound.strNaN`).
* The external `fast-fuzzy` library used for the approximate-similarity
  stage of the matcher is not part of this repository; it is abstracted
  as an `ApproxSearch` function (vocabulary → threshold → candidate →
  best match, the head of `searcher.search`). All theorems about the
  matcher hold for every such function.
-/

namespace SmartFilter

/-- Model of JavaScript `String.prototype.toLowerCase`, one character at a
time (the source only lowercases catalog words and query tokens). -/
def strToLower (s : String) : String := String.mk (s.toList.map Char.toLower)

/-- Model of JavaScript `String.prototype.includes`: containment of one
character sequence inside another. -/
def strIncludes (s sub : String) : Bool := decide (sub.toList <:+: s.toList)

/-- `DEFAULT_THRESHOLD` from `app/utils/fuzzyMatch.js`. -/
def DEFAULT_THRESHOLD : ℚ := 8 / 10

/-- `isSubstringMatch` from `app/utils/fuzzyMatch.js`: case-insensitive
substring match in either direction, gated on the candidate being at
least 3 characters long. -/
def isSubstringMatch (a b : String) : Bool :=
  let al := strToLower a
  let bl := strToLower b
  decide (3 ≤ al.length) && (strIncludes bl al || strIncludes al bl)

/-- Abstraction of the `fast-fuzzy` `Searcher`: given the vocabulary, the
similarity threshold and the candidate, return the best match above the
threshold, or `none`. The library itself is outside the repository. -/
abbrev ApproxSearch := List String → ℚ → String → Option String

/-- `fuzzyMatchValue` from `app/utils/fuzzyMatch.js`: guard on empty
candidate or vocabulary, then case-insensitive exact match, then
substring match, then approximate search, otherwise the candidate. -/
def fuzzyMatchValue (approx : ApproxSearch) (value : String)
    (knownValues : List String) (threshold : ℚ) : String :=
  if value = "" ∨ knownValues = [] then value
  else
    match knownValues.find? (fun v => strToLower v = strToLower value) with
    | some exact => exact
    | none =>
      match knownValues.find? (fun known => isSubstringMatch value known) with
      | some known => known
      | none =>
        match approx knownValues threshold value with
        | some r => r
        | none => value

/-- One variant option group of the taxonomy: an option name and the
observed values for it. -/
structure VariantOptionGroup where
  name : String
  values : List String
deriving DecidableEq

/-- The price range recorded in the taxonomy (unused by the passes proved
here but part of the taxonomy record). -/
structure TaxPriceRange where
  min : Option ℚ
  max : Option ℚ
  currency : Option String
deriving DecidableEq

/-- The per-shop taxonomy context handed to prompt construction and to the
fuzzy-correction pass. -/
structure Taxonomy where
  productTypes : List String
  vendors : List String
  tags : List String
  priceRange : Option TaxPriceRange
  variantOptions : List VariantOptionGroup
deriving DecidableEq

/-- A `variantOption` filter value: option name and value. -/
structure VariantOpt where
  name : String
  value : String
deriving DecidableEq

/-- A raw price bound as emitted by the model: a number, or a string
represented by its `parseFloat` result (parsed value or failed parse). -/
inductive RawBound where
  | num (q : ℚ)
  | strNum (q : ℚ)
  | strNaN
deriving DecidableEq

/-- The raw `price` sub-object of a filter before sanitization. -/
structure RawPrice where
  min : Option RawBound
  max : Option RawBound
deriving DecidableEq

/-- A filter descriptor as parsed from the model's tool call, before
sanitization. -/
structure RawFilter where
  productType : Option String
  productVendor : Option String
  tag : Option String
  available : Option Bool
  price : Option RawPrice
  variantOption : Option VariantOpt
deriving DecidableEq

/-- The `price` sub-object after sanitization: both bounds numeric. -/
structure Price where
  min : Option ℚ
  max : Option ℚ
deriving DecidableEq

/-- A filter descriptor after sanitization. -/
structure Filter where
  productType : Option String
  productVendor : Option String
  tag : Option String
  available : Option Bool
  price : Option Price
  variantOption : Option VariantOpt
deriving DecidableEq

/-- Number of populated keys of an option field (0 or 1). -/
def optCount {α : Type} (o : Option α) : ℕ := if o.isSome then 1 else 0

/-- `Object.keys(f).length` for a raw filter. -/
def RawFilter.countKeys (f : RawFilter) : ℕ :=
  optCount f.productType + optCount f.productVendor + optCount f.tag +
    optCount f.available + optCount f.price + optCount f.variantOption

/-- `Object.keys(f).length` for a sanitized filter. -/
def Filter.countKeys (f : Filter) : ℕ :=
  optCount f.productType + optCount f.productVendor + optCount f.tag +
    optCount f.available + optCount f.price + optCount f.variantOption

/-- Price-bound coercion from `sanitizeFilters`: a number passes through,
a string goes through `parseFloat`, and a `NaN` result becomes absent. -/
def coerceBound : Option RawBound → Option ℚ
  | none => none
  | some (RawBound.num q) => some q
  | some (RawBound.strNum q) => some q
  | some RawBound.strNaN => none

/-- The price part of `sanitizeFilters` from `ai-filter.server.js`: coerce
both bounds, swap when `min > max`, drop the dimension when both absent. -/
def sanitizePrice (rp : RawPrice) : Option Price :=
  match coerceBound rp.min, coerceBound rp.max with
  | none, none => none
  | some a, some b => if b < a then some ⟨some b, some a⟩ else some ⟨some a, some b⟩
  | m, mx => some ⟨m, mx⟩

/-- The per-filter body of `sanitizeFilters`: only the `price` dimension
is rewritten. -/
def sanitizeFilter (f : RawFilter) : Filter :=
  ⟨f.productType, f.productVendor, f.tag, f.available,
    match f.price with
    | none => none
    | some rp => sanitizePrice rp,
    f.variantOption⟩

/-- `sanitizeFilters` from `ai-filter.server.js`: sanitize each filter,
then drop filters left with zero populated keys. The taxonomy argument is
accepted but unused, as in the source. -/
def sanitizeFilters (filters : List RawFilter) (_taxonomyContext : Option Taxonomy) :
    List Filter :=
  (filters.map sanitizeFilter).filter (fun f => decide (0 < f.countKeys))

/-- Remove the `price` key of a filter (the `const ⟨price, ...rest⟩ = f`
destructuring of `mergeFilters`). -/
def Filter.stripPrice (f : Filter) : Filter :=
  ⟨f.productType, f.productVendor, f.tag, f.available, none, f.variantOption⟩

/-- The classification loop of `mergeFilters`: collect the price
sub-objects of price-only and mixed filters, keep the non-price residues
in order. -/
def splitPrices : List Filter → List Price × List Filter
  | [] => ([], [])
  | f :: rest =>
    let (ps, nps) := splitPrices rest
    match f.price with
    | some p =>
      if f.countKeys = 1 then (p :: ps, nps)
      else (p :: ps, f.stripPrice :: nps)
    | none => (ps, f :: nps)

/-- One step of the price-merging loop of `mergeFilters`: keep the smaller
min and the larger max, treating absent bounds as neutral. -/
def mergeStep (merged p : Price) : Price :=
  ⟨match p.min, merged.min with
    | some m, none => some m
    | some m, some a => if m < a then some m else some a
    | none, a => a,
   match p.max, merged.max with
    | some mx, none => some mx
    | some mx, some a => if a < mx then some mx else some a
    | none, a => a⟩

/-- The merged price range of all collected price sub-objects. -/
def mergedPrice (ps : List Price) : Price := ps.foldl mergeStep ⟨none, none⟩

/-- A filter carrying only a price range. -/
def priceOnlyFilter (p : Price) : Filter := ⟨none, none, none, none, some p, none⟩

/-- `mergeFilters` from `ai-filter.server.js`: split off the price
sub-objects, merge them into one range, and append it to the non-price
filters when it has at least one bound. -/
def mergeFilters (filters : List Filter) : List Filter :=
  let priceFilters := (splitPrices filters).1
  let nonPriceFilters := (splitPrices filters).2
  if priceFilters.isEmpty then nonPriceFilters
  else
    let merged := mergedPrice priceFilters
    if merged.min.isSome || merged.max.isSome then
      nonPriceFilters ++ [priceOnlyFilter merged]
    else nonPriceFilters

/-- The `variantOption` branch of `fuzzyCorrectFilters`: correct the name
against the known option names, then correct the value against the value
list of the group whose name matches the corrected name. -/
def correctVariantOption (approx : ApproxSearch) (tax : Taxonomy)
    (vo : VariantOpt) : VariantOpt :=
  let optNames := tax.variantOptions.map (fun o => o.name)
  let matchedName := fuzzyMatchValue approx vo.name optNames DEFAULT_THRESHOLD
  let newValue :=
    match tax.variantOptions.find? (fun o => strToLower o.name = strToLower matchedName) with
    | some optionGroup =>
      if vo.value = "" then vo.value
      else fuzzyMatchValue approx vo.value optionGroup.values DEFAULT_THRESHOLD
    | none => vo.value
  ⟨matchedName, newValue⟩

/-- The per-filter body of `fuzzyCorrectFilters`: correct `productType`,
`productVendor`, `tag` and `variantOption` against their vocabularies,
guarded as in the source on a truthy value and a non-empty vocabulary. -/
def fuzzyCorrectFilter (approx : ApproxSearch) (tax : Taxonomy) (f : Filter) : Filter :=
  ⟨f.productType.map (fun v =>
      if v = "" ∨ tax.productTypes = [] then v
      else fuzzyMatchValue approx v tax.productTypes DEFAULT_THRESHOLD),
   f.productVendor.map (fun v =>
      if v = "" ∨ tax.vendors = [] then v
      else fuzzyMatchValue approx v tax.vendors DEFAULT_THRESHOLD),
   f.tag.map (fun v =>
      if v = "" ∨ tax.tags = [] then v
      else fuzzyMatchValue approx v tax.tags DEFAULT_THRESHOLD),
   f.available,
   f.price,
   f.variantOption.map (fun vo =>
      if tax.variantOptions = [] then vo
      else correctVariantOption approx tax vo)⟩

/-- `fuzzyCorrectFilters` from `app/utils/fuzzyMatch.js`: with an absent
taxonomy or an empty filter list, the input is returned unchanged;
otherwise every filter is corrected. -/
def fuzzyCorrectFilters (approx : ApproxSearch) (filters : List Filter)
    (taxonomy : Option Taxonomy) : List Filter :=
  match taxonomy with
  | none => filters
  | some tax =>
    if filters.isEmpty then filters
    else filters.map (fuzzyCorrectFilter approx tax)

/-- `LLM_TIMEOUT_MS` from `ai-filter.server.js`. -/
def LLM_TIMEOUT_MS : ℕ := 8000

/-- An apostrophe character, used to spell the user-facing messages. -/
def apos : Char := '\''

/-- The timeout message of `mapQueryToFilters`. -/
def MSG_TIMEOUT : String := "The request took too long. Please try a simpler query."

/-- The missing-tool-call message of `mapQueryToFilters`. -/
def MSG_NO_TOOL_CALL : String :=
  "I couldn" ++ String.mk [apos] ++ "t process your request. Please try again."

/-- The parsed arguments of the `apply_filters` tool call; each field may
be missing and is defaulted by the destructuring in the source. -/
structure ToolArgs where
  filters : Option (List RawFilter)
  explanation : Option String
  searchQuery : Option String

/-- The observable outcome of the LLM round trip inside
`mapQueryToFilters`. The network call itself is outside the embedding;
what the source distinguishes is: the abort fired (timeout), the fetch or
response-body read threw (transport error), the response carried no tool
call, `JSON.parse` of the tool arguments threw, or the arguments parsed. -/
inductive LLMOutcome where
  | timeout
  | transportError (e : String)
  | noToolCall
  | badArguments (e : String)
  | toolCall (args : ToolArgs)

/-- The resolution result returned by `mapQueryToFilters`. `searchQuery`
is `none` on the branches whose object literal omits the field. -/
structure ResolutionResult where
  filters : List Filter
  explanation : String
  searchQuery : Option String
  latencyMs : ℤ
deriving DecidableEq

/-- `mapQueryToFilters` from `ai-filter.server.js`, from the point where
the LLM outcome is known: the timeout and missing-tool-call outcomes
degrade to an empty result with a user-facing message, every other
failure is rethrown, and a parsed tool call runs the
sanitize → merge → fuzzy-correct pipeline. -/
def mapQueryToFilters (approx : ApproxSearch) (taxonomyContext : Option Taxonomy)
    (outcome : LLMOutcome) (latencyMs : ℤ) : Except String ResolutionResult :=
  match outcome with
  | .timeout => .ok ⟨[], MSG_TIMEOUT, none, latencyMs⟩
  | .transportError e => .error e
  | .noToolCall => .ok ⟨[], MSG_NO_TOOL_CALL, none, latencyMs⟩
  | .badArguments e => .error e
  | .toolCall args =>
    let filters := args.filters.getD []
    let explanation := args.explanation.getD ""
    let searchQuery := args.searchQuery.getD ""
    let processed :=
      fuzzyCorrectFilters approx
        (mergeFilters (sanitizeFilters filters taxonomyContext)) taxonomyContext
    .ok ⟨processed, explanation, some searchQuery, latencyMs⟩

/-- `MAX_ENTRIES` from `queryCache.js`. -/
def MAX_ENTRIES : ℕ := 500

/-- `TTL_MS` from `queryCache.js` (30 minutes). -/
def TTL_MS : ℤ := 30 * 60 * 1000

/-- A cache entry: the stored value and its insertion timestamp. -/
structure CacheEntry (V : Type) where
  value : V
  timestamp : ℤ
deriving DecidableEq

/-- The backing `Map` of the query cache: an association list in
insertion order (the iteration order of a JavaScript `Map`). The key
type is left generic; the application instantiates it with the strings
built by `cacheKey`. -/
abbrev CacheMap (K V : Type) := List (K × CacheEntry V)

/-- `Map.prototype.delete`: remove the entry of a key. -/
def mapDelete {K V : Type} [DecidableEq K] (c : CacheMap K V) (k : K) : CacheMap K V :=
  c.filter (fun p => decide (p.1 ≠ k))

/-- `Map.prototype.get`: the entry stored for a key, if any. -/
def mapGet {K V : Type} [DecidableEq K] (c : CacheMap K V) (k : K) :
    Option (CacheEntry V) :=
  (c.find? (fun p => decide (p.1 = k))).map (fun p => p.2)

/-- `cacheGet` from `queryCache.js`: miss on an unseen key; lazily expire
and delete an entry past the TTL; otherwise return the value and
re-insert the entry at the most-recently-used end. The function returns
the looked-up value together with the updated map. -/
def cacheGet {K V : Type} [DecidableEq K] (c : CacheMap K V) (k : K) (now : ℤ) :
    Option V × CacheMap K V :=
  match mapGet c k with
  | none => (none, c)
  | some entry =>
    if TTL_MS < now - entry.timestamp then (none, mapDelete c k)
    else (some entry.value, mapDelete c k ++ [(k, entry)])

/-- The eviction step of `cacheSet`: `cache.keys().next().value` is the
first key in iteration order, and that entry is deleted (a delete on an
empty map is a no-op). -/
def cacheEvict {K V : Type} [DecidableEq K] (c : CacheMap K V) : CacheMap K V :=
  match c with
  | [] => c
  | oldest :: _ => mapDelete c oldest.1

/-- `cacheSet` from `queryCache.js`: delete the key first, evict the
first (least-recently-used) entry when at capacity, then insert at the
most-recently-used end with the current timestamp. -/
def cacheSet {K V : Type} [DecidableEq K] (c : CacheMap K V) (k : K) (v : V)
    (now : ℤ) : CacheMap K V :=
  let c1 := mapDelete c k
  let c2 := if MAX_ENTRIES ≤ c1.length then cacheEvict c1 else c1
  c2 ++ [(k, ⟨v, now⟩)]

/-- A rate-limit window entry: window start time and request count. -/
structure RLEntry where
  windowStart : ℤ
  count : ℤ
deriving DecidableEq

/-- The `windows` map of `rateLimiter.js`, keyed by caller identity. -/
abbrev RLMap := List (String × RLEntry)

/-- Lookup in the windows map. -/
def rlFind (w : RLMap) (k : String) : Option RLEntry :=
  (w.find? (fun p => decide (p.1 = k))).map (fun p => p.2)

/-- `Map.prototype.set` on the windows map: updating an existing key
keeps its position, a new key is appended. -/
def rlSet (w : RLMap) (k : String) (e : RLEntry) : RLMap :=
  if (w.find? (fun p => decide (p.1 = k))).isSome then
    w.map (fun p => if p.1 = k then (k, e) else p)
  else w ++ [(k, e)]

/-- The result of a rate-limit check. -/
structure RLResult where
  allowed : Bool
  remaining : ℤ
deriving DecidableEq

/-- `checkRateLimit` from `rateLimiter.js`: start a fresh window with
count 1 on a first request or once the window has elapsed; otherwise
increment the count and deny once it exceeds the maximum. Returns the
decision and the updated windows map. -/
def checkRateLimit (w : RLMap) (k : String) (maxRequests windowMs now : ℤ) :
    RLResult × RLMap :=
  match rlFind w k with
  | none => (⟨true, maxRequests - 1⟩, rlSet w k ⟨now, 1⟩)
  | some entry =>
    if windowMs ≤ now - entry.windowStart then
      (⟨true, maxRequests - 1⟩, rlSet w k ⟨now, 1⟩)
    else
      let cnt := entry.count + 1
      if maxRequests < cnt then (⟨false, 0⟩, rlSet w k ⟨entry.windowStart, cnt⟩)
      else (⟨true, maxRequests - cnt⟩, rlSet w k ⟨entry.windowStart, cnt⟩)

/-- `CLEANUP_INTERVAL` from `rateLimiter.js`. -/
def CLEANUP_INTERVAL : ℤ := 60000

/-- The body of the periodic `setInterval` sweep of `rateLimiter.js`:
delete every window whose start is more than 120 000 ms old. -/
def cleanupWindows (w : RLMap) (now : ℤ) : RLMap :=
  w.filter (fun p => decide (now - p.2.windowStart ≤ 120000))

/-- Run a sequence of timestamped requests for one key through
`checkRateLimit`, collecting the admission decisions. -/
def runRateLimit (k : String) (maxRequests windowMs : ℤ) :
    List ℤ → RLMap → List Bool
  | [], _ => []
  | t :: ts, w =>
    let r := checkRateLimit w k maxRequests windowMs t
    r.1.allowed :: runRateLimit k maxRequests windowMs ts r.2

/-- The merge pass as the specification words it, for comparison with
`mergeFilters`: keep the non-price filters in order (a mixed filter keeps
its non-price dimensions, a price-only fragment disappears), then append
a single price filter whose min is the minimum of all collected mins and
whose max is the maximum of all collected maxes, when at least one bound
was collected. -/
def mergeFiltersSpec (fs : List Filter) : List Filter :=
  let prices := fs.filterMap (fun f => f.price)
  let mins := prices.filterMap (fun p => p.min)
  let maxs := prices.filterMap (fun p => p.max)
  let base := fs.filterMap (fun f =>
    match f.price with
    | some _ => if f.stripPrice.countKeys = 0 then none else some f.stripPrice
    | none => some f)
  if mins.isEmpty && maxs.isEmpty then base
  else base ++ [priceOnlyFilter ⟨mins.min?, maxs.max?⟩]

/-- A filter with no populated dimension, used as the `getD` default when
stating pointwise frame properties. -/
def emptyFilter : Filter := ⟨none, none, none, none, none, none⟩

/-- A concrete approximate matcher for the two-stage variant-correction
scenario: it resolves "color" to "Colour" when "Colour" is in the
vocabulary, and "red" to "Crimson" when "Crimson" is. -/
def approxC3 : ApproxSearch := fun known _ v =>
  if v = "color" ∧ "Colour" ∈ known then some "Colour"
  else if v = "red" ∧ "Crimson" ∈ known then some "Crimson"
  else none

/-- A taxonomy with two variant option groups; the second one even holds
the literal value "red", so a correction against the wrong group would be
visible. -/
def taxC3 : Taxonomy := ⟨[], [], [], none, [⟨"Colour", ["Crimson"]⟩, ⟨"Hue", ["red"]⟩]⟩

/-- The candidate filter of the two-stage variant-correction scenario. -/
def filterC3 : Filter := ⟨none, none, none, none, none, some ⟨"color", "red"⟩⟩

/-- The tail of a concrete at-capacity cache: 499 entries with keys
1..499. -/
def c6rest : CacheMap ℕ ℕ := (List.range 499).map (fun i => (i + 1, ⟨0, 0⟩))

/-- A concrete cache filled to capacity (500 entries, keys 0..499, all
stored at time 0), key 0 in the least-recently-used position. -/
def c6c : CacheMap ℕ ℕ := (0, ⟨0, 0⟩) :: c6rest

/- ### Helper lemmas -/

/-- Combination of optional minima, the shape `mergeStep` takes on the
`min` component. -/
def obMin (a b : Option ℚ) : Option ℚ :=
  match a, b with
  | none, b => b
  | some x, none => some x
  | some x, some y => some (min x y)

/-- Combination of optional maxima. -/
def obMax (a b : Option ℚ) : Option ℚ :=
  match a, b with
  | none, b => b
  | some x, none => some x
  | some x, some y => some (max x y)

theorem obMin_none_right (a : Option ℚ) : obMin a none = a := by
  cases a <;> simp [obMin]

theorem obMax_none_right (a : Option ℚ) : obMax a none = a := by
  cases a <;> simp [obMax]

theorem obMin_assoc (a b c : Option ℚ) : obMin (obMin a b) c = obMin a (obMin b c) := by
  cases a <;> cases b <;> cases c <;> simp [obMin, min_assoc]

theorem obMax_assoc (a b c : Option ℚ) : obMax (obMax a b) c = obMax a (obMax b c) := by
  cases a <;> cases b <;> cases c <;> simp [obMax, max_assoc]

theorem min?_cons_obMin (a : ℚ) (l : List ℚ) : (a :: l).min? = obMin (some a) l.min? := by
  rw [List.min?_cons]
  cases h : l.min? <;> simp [obMin, Option.elim]

theorem max?_cons_obMax (a : ℚ) (l : List ℚ) : (a :: l).max? = obMax (some a) l.max? := by
  rw [List.max?_cons]
  cases h : l.max? <;> simp [obMax, Option.elim]

theorem mergeStep_min (acc p : Price) : (mergeStep acc p).min = obMin acc.min p.min := by
  cases hp : p.min with
  | none => cases ha : acc.min <;> simp [mergeStep, obMin, hp, ha]
  | some m =>
    cases ha : acc.min with
    | none => simp [mergeStep, obMin, hp, ha]
    | some a =>
      simp only [mergeStep, obMin, hp, ha]
      by_cases h : m < a
      · simp [h, min_eq_right h.le]
      · simp [h, min_eq_left (not_lt.mp h)]

theorem mergeStep_max (acc p : Price) : (mergeStep acc p).max = obMax acc.max p.max := by
  cases hp : p.max with
  | none => cases ha : acc.max <;> simp [mergeStep, obMax, hp, ha]
  | some m =>
    cases ha : acc.max with
    | none => simp [mergeStep, obMax, hp, ha]
    | some a =>
      simp only [mergeStep, obMax, hp, ha]
      by_cases h : a < m
      · simp [h, max_eq_right h.le]
      · simp [h, max_eq_left (not_lt.mp h)]

theorem foldl_mergeStep_min (ps : List Price) (acc : Price) :
    (ps.foldl mergeStep acc).min = obMin acc.min (ps.filterMap (fun p => p.min)).min? := by
  induction ps generalizing acc with
  | nil => cases h : acc.min <;> simp [obMin, h]
  | cons p ps ih =>
    rw [List.foldl_cons, ih]
    cases hp : p.min with
    | none =>
      simp [List.filterMap_cons, hp, mergeStep_min, obMin_none_right]
    | some m =>
      simp only [List.filterMap_cons, hp, min?_cons_obMin, mergeStep_min]
      rw [← obMin_assoc]

theorem foldl_mergeStep_max (ps : List Price) (acc : Price) :
    (ps.foldl mergeStep acc).max = obMax acc.max (ps.filterMap (fun p => p.max)).max? := by
  induction ps generalizing acc with
  | nil => cases h : acc.max <;> simp [obMax, h]
  | cons p ps ih =>
    rw [List.foldl_cons, ih]
    cases hp : p.max with
    | none =>
      simp [List.filterMap_cons, hp, mergeStep_max, obMax_none_right]
    | some m =>
      simp only [List.filterMap_cons, hp, max?_cons_obMax, mergeStep_max]
      rw [← obMax_assoc]

theorem mergedPrice_min (ps : List Price) :
    (mergedPrice ps).min = (ps.filterMap (fun p => p.min)).min? := by
  rw [mergedPrice, foldl_mergeStep_min]
  cases h : (ps.filterMap (fun p => p.min)).min? <;> simp [obMin]

theorem mergedPrice_max (ps : List Price) :
    (mergedPrice ps).max = (ps.filterMap (fun p => p.max)).max? := by
  rw [mergedPrice, foldl_mergeStep_max]
  cases h : (ps.filterMap (fun p => p.max)).max? <;> simp [obMax]

theorem countKeys_stripPrice (f : Filter) (hp : f.price.isSome) :
    f.countKeys = f.stripPrice.countKeys + 1 := by
  obtain ⟨pt, pv, tg, av, pr, vo⟩ := f
  cases pr with
  | none => simp at hp
  | some p =>
    simp [Filter.countKeys, Filter.stripPrice, optCount]
    omega

theorem splitPrices_fst (fs : List Filter) :
    (splitPrices fs).1 = fs.filterMap (fun f => f.price) := by
  induction fs with
  | nil => rfl
  | cons f fs ih =>
    simp only [splitPrices]
    cases hp : f.price with
    | none => simpa [List.filterMap_cons, hp] using ih
    | some p =>
      by_cases h1 : f.countKeys = 1 <;>
        simp [List.filterMap_cons, hp, h1, ih]

theorem splitPrices_snd (fs : List Filter) :
    (splitPrices fs).2 = fs.filterMap (fun f =>
      match f.price with
      | some _ => if f.stripPrice.countKeys = 0 then none else some f.stripPrice
      | none => some f) := by
  induction fs with
  | nil => rfl
  | cons f fs ih =>
    simp only [splitPrices]
    cases hp : f.price with
    | none => simpa [List.filterMap_cons, hp] using ih
    | some p =>
      have hiff : f.countKeys = 1 ↔ f.stripPrice.countKeys = 0 := by
        have := countKeys_stripPrice f (by simp [hp])
        omega
      by_cases h1 : f.countKeys = 1
      · simp [List.filterMap_cons, hp, h1, hiff.mp h1, ih]
      · have h0 : ¬ f.stripPrice.countKeys = 0 := fun h => h1 (hiff.mpr h)
        simp [List.filterMap_cons, hp, h1, h0, ih]

theorem min?_isSome_of_ne_nil {l : List ℚ} (h : l ≠ []) : l.min?.isSome := by
  cases l with
  | nil => exact absurd rfl h
  | cons a t => rw [List.min?_cons]; rfl

theorem max?_isSome_of_ne_nil {l : List ℚ} (h : l ≠ []) : l.max?.isSome := by
  cases l with
  | nil => exact absurd rfl h
  | cons a t => rw [List.max?_cons]; rfl

/- ### Claim theorems -/

/-- C1: the sanitize pass coerces price bounds to numbers (strings via
`parseFloat`), drops `NaN` bounds, swaps inverted bounds, removes the
price dimension when both bounds end up absent, and drops any filter left
with zero populated keys; every surviving price bound is numeric
(an `Option ℚ` in the model) and the surviving bounds are ordered. The
stated round-trip `{price:{min:"50",max:"10"}}` → `{price:{min:10,max:50}}`
holds. -/
theorem claim_C1_sanitize :
    (∀ (tax : Option Taxonomy) (fs : List RawFilter) (f' : Filter),
      f' ∈ sanitizeFilters fs tax ↔
        (∃ f ∈ fs, sanitizeFilter f = f') ∧ 0 < f'.countKeys) ∧
    (∀ (f : RawFilter) (p : Price), (sanitizeFilter f).price = some p →
      (p.min.isSome ∨ p.max.isSome) ∧
        ∀ a b : ℚ, p.min = some a → p.max = some b → a ≤ b) ∧
    (∀ (f : RawFilter) (rp : RawPrice) (a b : ℚ), f.price = some rp →
      coerceBound rp.min = some a → coerceBound rp.max = some b → b < a →
      (sanitizeFilter f).price = some ⟨some b, some a⟩) ∧
    (∀ (f : RawFilter) (rp : RawPrice), f.price = some rp →
      coerceBound rp.min = none → coerceBound rp.max = none →
      (sanitizeFilter f).price = none) ∧
    (∀ q : ℚ, coerceBound (some (RawBound.strNum q)) = some q) ∧
    coerceBound (some RawBound.strNaN) = none ∧
    sanitizeFilters
        [⟨none, none, none, none,
          some ⟨some (RawBound.strNum 50), some (RawBound.strNum 10)⟩, none⟩] none
      = [⟨none, none, none, none, some ⟨some 10, some 50⟩, none⟩] := by
  refine ⟨?_, ?_, ?_, ?_, fun q => rfl, rfl, by decide⟩
  · intro tax fs f'
    simp [sanitizeFilters, List.mem_filter]
  · intro f p hp
    obtain ⟨pt, pv, tg, av, pr, vo⟩ := f
    cases pr with
    | none => simp [sanitizeFilter] at hp
    | some rp =>
      simp only [sanitizeFilter] at hp
      cases hm : coerceBound rp.min with
      | none =>
        cases hM : coerceBound rp.max with
        | none => simp [sanitizePrice, hm, hM] at hp
        | some b =>
          simp only [sanitizePrice, hm, hM, Option.some.injEq] at hp
          subst hp
          exact ⟨Or.inr rfl, by intro a b h1 h2; cases h1⟩
      | some a =>
        cases hM : coerceBound rp.max with
        | none =>
          simp only [sanitizePrice, hm, hM, Option.some.injEq] at hp
          subst hp
          exact ⟨Or.inl rfl, by intro a b h1 h2; cases h2⟩
        | some b =>
          simp only [sanitizePrice, hm, hM] at hp
          by_cases hba : b < a
          · rw [if_pos hba] at hp
            obtain rfl := Option.some.inj hp
            refine ⟨Or.inl rfl, ?_⟩
            intro x y hx hy
            obtain rfl := Option.some.inj hx
            obtain rfl := Option.some.inj hy
            exact hba.le
          · rw [if_neg hba] at hp
            obtain rfl := Option.some.inj hp
            refine ⟨Or.inl rfl, ?_⟩
            intro x y hx hy
            obtain rfl := Option.some.inj hx
            obtain rfl := Option.some.inj hy
            exact not_lt.mp hba
  · intro f rp a b hpr hm hM hba
    obtain ⟨pt, pv, tg, av, pr, vo⟩ := f
    cases pr with
    | none => cases hpr
    | some rp0 =>
      obtain rfl := Option.some.inj hpr
      simp [sanitizeFilter, sanitizePrice, hm, hM, hba]
  · intro f rp hpr hm hM
    obtain ⟨pt, pv, tg, av, pr, vo⟩ := f
    cases pr with
    | none => cases hpr
    | some rp0 =>
      obtain rfl := Option.some.inj hpr
      simp [sanitizeFilter, sanitizePrice, hm, hM]

/-- Witness for C1 at concrete inputs. -/
theorem claim_C1_sanitize_witness :
    (⟨none, none, none, none, some ⟨some (10 : ℚ), some 50⟩, none⟩ : Filter) ∈
      sanitizeFilters
        [⟨none, none, none, none,
          some ⟨some (RawBound.strNum 50), some (RawBound.strNum 10)⟩, none⟩] none ∧
    (sanitizeFilter
        ⟨none, none, none, none, some ⟨some (RawBound.num 3), some RawBound.strNaN⟩, none⟩).price
      = some ⟨some 3, none⟩ := by
  constructor
  · exact (claim_C1_sanitize.1 none _ _).mpr
      ⟨⟨⟨none, none, none, none,
          some ⟨some (RawBound.strNum 50), some (RawBound.strNum 10)⟩, none⟩,
        by decide, by decide⟩, by decide⟩
  · decide

/-- C2: the merge pass collects all price sub-objects (from price-only
and mixed filters alike) and combines them into a single range with the
minimum of all present mins and the maximum of all present maxes,
re-attached after the non-price filters, whose non-price dimensions
survive untouched; `{price:{min:20}}` and `{price:{max:80}}` merge into
`{price:{min:20,max:80}}`. -/
theorem claim_C2_merge :
    (∀ fs : List Filter, mergeFilters fs = mergeFiltersSpec fs) ∧
    mergeFilters
        [⟨none, none, none, none, some ⟨some 20, none⟩, none⟩,
         ⟨none, none, none, none, some ⟨none, some 80⟩, none⟩]
      = [⟨none, none, none, none, some ⟨some 20, some 80⟩, none⟩] := by
  refine ⟨?_, by decide⟩
  intro fs
  simp only [mergeFilters, mergeFiltersSpec, splitPrices_fst, splitPrices_snd]
  have hmin := mergedPrice_min (fs.filterMap (fun f => f.price))
  have hmax := mergedPrice_max (fs.filterMap (fun f => f.price))
  by_cases hm : (fs.filterMap (fun f => f.price)).filterMap (fun p => p.min) = []
  · by_cases hM : (fs.filterMap (fun f => f.price)).filterMap (fun p => p.max) = []
    · have h1 : (mergedPrice (fs.filterMap (fun f => f.price))).min = none := by
        rw [hmin, hm]; rfl
      have h2 : (mergedPrice (fs.filterMap (fun f => f.price))).max = none := by
        rw [hmax, hM]; rfl
      by_cases hp : (fs.filterMap (fun f => f.price)).isEmpty <;>
        simp [hp, h1, h2, hm, hM]
    · have hpne : ¬ (fs.filterMap (fun f => f.price)).isEmpty := by
        intro h
        rw [List.isEmpty_iff] at h
        rw [h] at hM
        exact hM rfl
      have h2 : (mergedPrice (fs.filterMap (fun f => f.price))).max.isSome := by
        rw [hmax]; exact max?_isSome_of_ne_nil hM
      have hP : mergedPrice (fs.filterMap (fun f => f.price)) =
          (⟨((fs.filterMap (fun f => f.price)).filterMap (fun p => p.min)).min?,
            ((fs.filterMap (fun f => f.price)).filterMap (fun p => p.max)).max?⟩ : Price) := by
        rw [← hmin, ← hmax]
      simp [hpne, h2, hm, hM, hP, priceOnlyFilter]
  · have hpne : ¬ (fs.filterMap (fun f => f.price)).isEmpty := by
      intro h
      rw [List.isEmpty_iff] at h
      rw [h] at hm
      exact hm rfl
    have h1 : (mergedPrice (fs.filterMap (fun f => f.price))).min.isSome := by
      rw [hmin]; exact min?_isSome_of_ne_nil hm
    have hP : mergedPrice (fs.filterMap (fun f => f.price)) =
        (⟨((fs.filterMap (fun f => f.price)).filterMap (fun p => p.min)).min?,
          ((fs.filterMap (fun f => f.price)).filterMap (fun p => p.max)).max?⟩ : Price) := by
      rw [← hmin, ← hmax]
    simp [hpne, h1, hm, hP, priceOnlyFilter]

/-- Witness for C2 at a concrete input mixing a price fragment with a
mixed filter. -/
theorem claim_C2_merge_witness :
    mergeFilters
        [⟨some "Shoes", none, none, none, some ⟨some 5, none⟩, none⟩,
         ⟨none, none, none, none, some ⟨some 2, some 9⟩, none⟩]
      = mergeFiltersSpec
        [⟨some "Shoes", none, none, none, some ⟨some 5, none⟩, none⟩,
         ⟨none, none, none, none, some ⟨some 2, some 9⟩, none⟩] :=
  claim_C2_merge.1 _

/-- C4: `fuzzyMatchValue` applies its stages in strict priority order:
case-insensitive exact match first (returning the canonical known form),
then a case-insensitive substring match in either direction gated on
candidate length ≥ 3, then the approximate search above the threshold,
otherwise the candidate unchanged; `"sunglasses"` against
`["Sunglasses"]` resolves through the exact path for every approximate
matcher. -/
theorem claim_C4_fuzzyMatchValue :
    (∀ (approx : ApproxSearch) (v : String) (ks : List String) (thr : ℚ),
      (v = "" ∨ ks = []) → fuzzyMatchValue approx v ks thr = v) ∧
    (∀ (approx : ApproxSearch) (v : String) (ks : List String) (thr : ℚ) (k : String),
      v ≠ "" → ks.find? (fun x => strToLower x = strToLower v) = some k →
      fuzzyMatchValue approx v ks thr = k) ∧
    (∀ v b : String, (strToLower v).length < 3 → isSubstringMatch v b = false) ∧
    (∀ (approx : ApproxSearch) (v : String) (ks : List String) (thr : ℚ) (k : String),
      ks.find? (fun x => strToLower x = strToLower v) = none →
      ks.find? (fun known => isSubstringMatch v known) = some k →
      fuzzyMatchValue approx v ks thr = k) ∧
    (∀ (approx : ApproxSearch) (v : String) (ks : List String) (thr : ℚ) (r : String),
      v ≠ "" → ks ≠ [] →
      ks.find? (fun x => strToLower x = strToLower v) = none →
      ks.find? (fun known => isSubstringMatch v known) = none →
      approx ks thr v = some r →
      fuzzyMatchValue approx v ks thr = r) ∧
    (∀ (approx : ApproxSearch) (v : String) (ks : List String) (thr : ℚ),
      v ≠ "" → ks ≠ [] →
      ks.find? (fun x => strToLower x = strToLower v) = none →
      ks.find? (fun known => isSubstringMatch v known) = none →
      approx ks thr v = none →
      fuzzyMatchValue approx v ks thr = v) ∧
    (∀ (approx : ApproxSearch) (thr : ℚ),
      fuzzyMatchValue approx "sunglasses" ["Sunglasses"] thr = "Sunglasses") := by
  refine ⟨?_, ?_, ?_, ?_, ?_, ?_, ?_⟩
  · intro approx v ks thr h
    simp [fuzzyMatchValue, h]
  · intro approx v ks thr k hv hfind
    have hks : ks ≠ [] := by rintro rfl; simp at hfind
    simp [fuzzyMatchValue, hv, hks, hfind]
  · intro v b h
    simp only [isSubstringMatch, Bool.and_eq_false_imp, decide_eq_true_eq]
    intro h3
    omega
  · intro approx v ks thr k hexact hsub
    have hpred := List.find?_some hsub
    have h3 : 3 ≤ (strToLower v).length := by
      simp only [isSubstringMatch, Bool.and_eq_true, decide_eq_true_eq] at hpred
      exact hpred.1
    have hv : v ≠ "" := by
      rintro rfl
      simp [strToLower] at h3
    have hks : ks ≠ [] := by rintro rfl; simp at hsub
    simp [fuzzyMatchValue, hv, hks, hexact, hsub]
  · intro approx v ks thr r hv hks hexact hsub happ
    simp [fuzzyMatchValue, hv, hks, hexact, hsub, happ]
  · intro approx v ks thr hv hks hexact hsub happ
    simp [fuzzyMatchValue, hv, hks, hexact, hsub, happ]
  · intro approx thr
    simp [fuzzyMatchValue]
    rfl

/-- Witness for C4: the exact stage beats a coexisting substring match,
and the gate blocks short candidates, at concrete inputs. -/
theorem claim_C4_fuzzyMatchValue_witness :
    fuzzyMatchValue (fun _ _ _ => some "noise") "sunglasses" ["Sun", "sunglasses"] (8 / 10)
        = "sunglasses" ∧
    isSubstringMatch "ab" "abcdef" = false := by
  constructor
  · exact claim_C4_fuzzyMatchValue.2.1 (fun _ _ _ => some "noise") "sunglasses"
      ["Sun", "sunglasses"] (8 / 10) "sunglasses" (by decide) (by decide)
  · exact claim_C4_fuzzyMatchValue.2.2.1 "ab" "abcdef" (by decide)

/-- C3: variant-option correction is two-stage: the name is corrected
against the known option names first, and the value is then corrected
against the value list of the option group whose name (case-insensitively)
matches the *corrected* name; when no group matches the corrected name the
value is left unchanged. In the concrete scenario the value "red" is
corrected inside the matched "Colour" group even though an unrelated
group literally holds the value "red". -/
theorem claim_C3_variantTwoStage :
    (∀ (approx : ApproxSearch) (tax : Taxonomy) (f : Filter) (vo : VariantOpt),
      tax.variantOptions ≠ [] → f.variantOption = some vo →
      ((fuzzyCorrectFilter approx tax f).variantOption.map (fun w => w.name)
          = some (fuzzyMatchValue approx vo.name
              (tax.variantOptions.map (fun o => o.name)) DEFAULT_THRESHOLD)) ∧
      (∀ g : VariantOptionGroup,
        tax.variantOptions.find? (fun o => strToLower o.name =
            strToLower (fuzzyMatchValue approx vo.name
              (tax.variantOptions.map (fun o => o.name)) DEFAULT_THRESHOLD)) = some g →
        vo.value ≠ "" →
        (fuzzyCorrectFilter approx tax f).variantOption.map (fun w => w.value)
          = some (fuzzyMatchValue approx vo.value g.values DEFAULT_THRESHOLD)) ∧
      (tax.variantOptions.find? (fun o => strToLower o.name =
            strToLower (fuzzyMatchValue approx vo.name
              (tax.variantOptions.map (fun o => o.name)) DEFAULT_THRESHOLD)) = none →
        (fuzzyCorrectFilter approx tax f).variantOption.map (fun w => w.value)
          = some vo.value)) ∧
    fuzzyCorrectFilters approxC3 [filterC3] (some taxC3)
      = [⟨none, none, none, none, none, some ⟨"Colour", "Crimson"⟩⟩] := by
  refine ⟨?_, by decide⟩
  intro approx tax f vo htax hvo
  refine ⟨?_, ?_, ?_⟩
  · simp [fuzzyCorrectFilter, hvo, htax, correctVariantOption]
  · intro g hg hval
    simp [fuzzyCorrectFilter, hvo, htax, correctVariantOption, hg, hval]
  · intro hg
    simp [fuzzyCorrectFilter, hvo, htax, correctVariantOption, hg]

/-- Witness for C3 at the concrete scenario inputs. -/
theorem claim_C3_variantTwoStage_witness :
    (fuzzyCorrectFilter approxC3 taxC3 filterC3).variantOption.map (fun w => w.name)
      = some (fuzzyMatchValue approxC3 "color"
          (taxC3.variantOptions.map (fun o => o.name)) DEFAULT_THRESHOLD) ∧
    (fuzzyCorrectFilter approxC3 taxC3 filterC3).variantOption.map (fun w => w.value)
      = some (fuzzyMatchValue approxC3 "red" ["Crimson"] DEFAULT_THRESHOLD) := by
  have h := claim_C3_variantTwoStage.1 approxC3 taxC3 filterC3 ⟨"color", "red"⟩
    (by decide) (by decide)
  refine ⟨h.1, ?_⟩
  exact h.2.1 ⟨"Colour", ["Crimson"]⟩ (by decide) (by decide)

theorem fuzzyCorrectFilter_frame (approx : ApproxSearch) (tax : Taxonomy) (f : Filter) :
    (fuzzyCorrectFilter approx tax f).price = f.price ∧
    (fuzzyCorrectFilter approx tax f).available = f.available ∧
    (fuzzyCorrectFilter approx tax f).productType.isSome = f.productType.isSome ∧
    (fuzzyCorrectFilter approx tax f).productVendor.isSome = f.productVendor.isSome ∧
    (fuzzyCorrectFilter approx tax f).tag.isSome = f.tag.isSome ∧
    (fuzzyCorrectFilter approx tax f).variantOption.isSome = f.variantOption.isSome ∧
    (tax.productTypes = [] → (fuzzyCorrectFilter approx tax f).productType = f.productType) ∧
    (tax.vendors = [] → (fuzzyCorrectFilter approx tax f).productVendor = f.productVendor) ∧
    (tax.tags = [] → (fuzzyCorrectFilter approx tax f).tag = f.tag) ∧
    (tax.variantOptions = [] →
      (fuzzyCorrectFilter approx tax f).variantOption = f.variantOption) := by
  refine ⟨rfl, rfl, ?_, ?_, ?_, ?_, ?_, ?_, ?_, ?_⟩ <;>
    simp [fuzzyCorrectFilter] <;> intro h <;> simp [h]

/-- C10 (implicit frame property): `fuzzyCorrectFilters` keeps the length
and order of the filter list, keeps the exact set of populated dimensions
of every filter, never touches `price` or `available`, leaves each of the
string dimensions unchanged when its vocabulary is empty, and returns the
input unchanged for an absent taxonomy or an empty list. -/
theorem claim_C10_frame (approx : ApproxSearch) (taxOpt : Option Taxonomy)
    (fs : List Filter) :
    (fuzzyCorrectFilters approx fs taxOpt).length = fs.length ∧
    fuzzyCorrectFilters approx fs none = fs ∧
    fuzzyCorrectFilters approx [] taxOpt = [] ∧
    ∀ i : ℕ,
      ((fuzzyCorrectFilters approx fs taxOpt).getD i emptyFilter).price
          = (fs.getD i emptyFilter).price ∧
      ((fuzzyCorrectFilters approx fs taxOpt).getD i emptyFilter).available
          = (fs.getD i emptyFilter).available ∧
      ((fuzzyCorrectFilters approx fs taxOpt).getD i emptyFilter).productType.isSome
          = (fs.getD i emptyFilter).productType.isSome ∧
      ((fuzzyCorrectFilters approx fs taxOpt).getD i emptyFilter).productVendor.isSome
          = (fs.getD i emptyFilter).productVendor.isSome ∧
      ((fuzzyCorrectFilters approx fs taxOpt).getD i emptyFilter).tag.isSome
          = (fs.getD i emptyFilter).tag.isSome ∧
      ((fuzzyCorrectFilters approx fs taxOpt).getD i emptyFilter).variantOption.isSome
          = (fs.getD i emptyFilter).variantOption.isSome ∧
      ∀ tax : Taxonomy, taxOpt = some tax →
        (tax.productTypes = [] →
          ((fuzzyCorrectFilters approx fs taxOpt).getD i emptyFilter).productType
            = (fs.getD i emptyFilter).productType) ∧
        (tax.vendors = [] →
          ((fuzzyCorrectFilters approx fs taxOpt).getD i emptyFilter).productVendor
            = (fs.getD i emptyFilter).productVendor) ∧
        (tax.tags = [] →
          ((fuzzyCorrectFilters approx fs taxOpt).getD i emptyFilter).tag
            = (fs.getD i emptyFilter).tag) ∧
        (tax.variantOptions = [] →
          ((fuzzyCorrectFilters approx fs taxOpt).getD i emptyFilter).variantOption
            = (fs.getD i emptyFilter).variantOption) := by
  cases taxOpt with
  | none =>
    refine ⟨rfl, rfl, rfl, ?_⟩
    intro i
    exact ⟨rfl, rfl, rfl, rfl, rfl, rfl, fun tax h => by cases h⟩
  | some tax =>
    by_cases hfs : fs.isEmpty
    · rw [List.isEmpty_iff] at hfs
      subst hfs
      refine ⟨rfl, rfl, rfl, ?_⟩
      intro i
      exact ⟨rfl, rfl, rfl, rfl, rfl, rfl, fun tax0 h => ⟨fun _ => rfl, fun _ => rfl,
        fun _ => rfl, fun _ => rfl⟩⟩
    · have hout : fuzzyCorrectFilters approx fs (some tax)
          = fs.map (fuzzyCorrectFilter approx tax) := by
        simp [fuzzyCorrectFilters, hfs]
      refine ⟨by rw [hout]; exact fs.length_map _, rfl, by simp [fuzzyCorrectFilters], ?_⟩
      intro i
      rw [hout]
      cases hget : fs[i]? with
      | none =>
        have hlen : fs.length ≤ i := by
          rw [← List.getElem?_eq_none_iff]
          exact hget
        have h1 : (fs.map (fuzzyCorrectFilter approx tax)).getD i emptyFilter
            = emptyFilter :=
          List.getD_eq_default _ _ (by rw [List.length_map]; exact hlen)
        have h2 : fs.getD i emptyFilter = emptyFilter :=
          List.getD_eq_default _ _ hlen
        rw [h1, h2]
        exact ⟨rfl, rfl, rfl, rfl, rfl, rfl, fun tax0 h => by
          obtain rfl := Option.some.inj h
          exact ⟨fun _ => rfl, fun _ => rfl, fun _ => rfl, fun _ => rfl⟩⟩
      | some x =>
        have h1 : (fs.map (fuzzyCorrectFilter approx tax)).getD i emptyFilter
            = fuzzyCorrectFilter approx tax x := by
          rw [List.getD_eq_getElem?_getD, List.getElem?_map, hget]
          rfl
        have h2 : fs.getD i emptyFilter = x := by
          rw [List.getD_eq_getElem?_getD, hget]
          rfl
        rw [h1, h2]
        obtain ⟨hp, ha, h3, h4, h5, h6, h7, h8, h9, h10⟩ :=
          fuzzyCorrectFilter_frame approx tax x
        exact ⟨hp, ha, h3, h4, h5, h6, fun tax0 h => by
          obtain rfl := Option.some.inj h
          exact ⟨h7, h8, h9, h10⟩⟩

/-- C5: inside the resolution engine, a timeout degrades to an empty
result with the user-facing "took too long" message and a missing tool
invocation degrades to an empty result with the "couldn't process"
message, neither raising; every other transport or argument-parse failure
is propagated to the caller as an error. The timeout bound is 8000 ms. -/
theorem claim_C5_resolutionErrors :
    (∀ (approx : ApproxSearch) (tax : Option Taxonomy) (lat : ℤ),
      mapQueryToFilters approx tax LLMOutcome.timeout lat
        = Except.ok ⟨[], MSG_TIMEOUT, none, lat⟩) ∧
    (∀ (approx : ApproxSearch) (tax : Option Taxonomy) (lat : ℤ),
      mapQueryToFilters approx tax LLMOutcome.noToolCall lat
        = Except.ok ⟨[], MSG_NO_TOOL_CALL, none, lat⟩) ∧
    (∀ (approx : ApproxSearch) (tax : Option Taxonomy) (e : String) (lat : ℤ),
      mapQueryToFilters approx tax (LLMOutcome.transportError e) lat
        = Except.error e) ∧
    (∀ (approx : ApproxSearch) (tax : Option Taxonomy) (e : String) (lat : ℤ),
      mapQueryToFilters approx tax (LLMOutcome.badArguments e) lat
        = Except.error e) ∧
    MSG_TIMEOUT = "The request took too long. Please try a simpler query." ∧
    LLM_TIMEOUT_MS = 8000 :=
  ⟨fun _ _ _ => rfl, fun _ _ _ => rfl, fun _ _ _ _ => rfl, fun _ _ _ _ => rfl, rfl, rfl⟩

/- ### Cache helper lemmas -/

theorem mapDelete_not_mem {K V : Type} [DecidableEq K] {c : CacheMap K V} {k : K}
    (h : k ∉ c.map Prod.fst) : mapDelete c k = c := by
  induction c with
  | nil => rfl
  | cons p c ih =>
    simp only [List.map_cons, List.mem_cons, not_or] at h
    have hne : p.1 ≠ k := fun e => h.1 e.symm
    simp only [mapDelete, List.filter_cons, decide_eq_true_eq]
    rw [if_pos (by simpa using hne)]
    exact congrArg (p :: ·) (ih h.2)

theorem mem_of_mem_mapDelete {K V : Type} [DecidableEq K] {c : CacheMap K V} {k : K}
    {p : K × CacheEntry V} (h : p ∈ mapDelete c k) : p ∈ c :=
  (List.mem_filter.mp h).1

theorem key_ne_of_mem_mapDelete {K V : Type} [DecidableEq K] {c : CacheMap K V} {k : K}
    {p : K × CacheEntry V} (h : p ∈ mapDelete c k) : p.1 ≠ k := by
  have := (List.mem_filter.mp h).2
  simpa using this

theorem keys_mapDelete_subset {K V : Type} [DecidableEq K] {c : CacheMap K V} {k x : K}
    (h : x ∈ (mapDelete c k).map Prod.fst) : x ∈ c.map Prod.fst := by
  obtain ⟨p, hp, rfl⟩ := List.mem_map.mp h
  exact List.mem_map.mpr ⟨p, mem_of_mem_mapDelete hp, rfl⟩

theorem length_mapDelete_nodup {K V : Type} [DecidableEq K] {c : CacheMap K V} {k : K}
    (hnd : (c.map Prod.fst).Nodup) (hk : k ∈ c.map Prod.fst) :
    (mapDelete c k).length + 1 = c.length := by
  induction c with
  | nil => simp at hk
  | cons p c ih =>
    simp only [List.map_cons, List.nodup_cons] at hnd
    simp only [List.map_cons, List.mem_cons] at hk
    by_cases hkp : p.1 = k
    · have hknotin : k ∉ c.map Prod.fst := by rw [← hkp]; exact hnd.1
      have hdel : mapDelete c k = c := mapDelete_not_mem hknotin
      show ((p :: c).filter (fun q => decide (q.1 ≠ k))).length + 1 = c.length + 1
      rw [List.filter_cons, if_neg (by simp [hkp])]
      rw [show c.filter (fun q => decide (q.1 ≠ k)) = c from hdel]
    · have hk2 : k ∈ c.map Prod.fst := by
        cases hk with
        | inl h => exact absurd h.symm hkp
        | inr h => exact h
      show ((p :: c).filter (fun q => decide (q.1 ≠ k))).length + 1 = (p :: c).length
      rw [List.filter_cons, if_pos (by simpa using hkp)]
      have hlen := ih hnd.2 hk2
      simp only [mapDelete] at hlen
      simp only [List.length_cons]
      omega

theorem mem_of_mem_cacheEvict {K V : Type} [DecidableEq K] {c : CacheMap K V}
    {p : K × CacheEntry V} (h : p ∈ cacheEvict c) : p ∈ c := by
  cases c with
  | nil => exact h
  | cons q c => exact mem_of_mem_mapDelete h

theorem length_cacheEvict_cons {K V : Type} [DecidableEq K] (q : K × CacheEntry V)
    (c : CacheMap K V) : (cacheEvict (q :: c)).length ≤ c.length := by
  simp only [cacheEvict, mapDelete, List.filter_cons]
  rw [if_neg (by simp)]
  exact List.length_filter_le _ c

theorem mapGet_mem {K V : Type} [DecidableEq K] {c : CacheMap K V} {k : K}
    {e : CacheEntry V} (h : mapGet c k = some e) : k ∈ c.map Prod.fst := by
  simp only [mapGet, Option.map_eq_some'] at h
  obtain ⟨p, hp, rfl⟩ := h
  have hmem := List.mem_of_find?_eq_some hp
  have hkey : p.1 = k := by simpa using List.find?_some hp
  exact List.mem_map.mpr ⟨p, hmem, hkey⟩

theorem mapGet_cacheSet {K V : Type} [DecidableEq K] (c : CacheMap K V) (k : K)
    (v : V) (now : ℤ) : mapGet (cacheSet c k v now) k = some ⟨v, now⟩ := by
  have hsub : ∀ p ∈ (if MAX_ENTRIES ≤ (mapDelete c k).length then
      cacheEvict (mapDelete c k) else mapDelete c k), p.1 ≠ k := by
    intro p hp
    split at hp
    · exact key_ne_of_mem_mapDelete (mem_of_mem_cacheEvict hp)
    · exact key_ne_of_mem_mapDelete hp
  have hnone : ((if MAX_ENTRIES ≤ (mapDelete c k).length then
      cacheEvict (mapDelete c k) else mapDelete c k).find?
        (fun p => decide (p.1 = k))) = none := by
    rw [List.find?_eq_none]
    intro p hp
    simpa using hsub p hp
  simp only [cacheSet, mapGet, List.find?_append, hnone, Option.none_or]
  simp

/-- C7: `cacheGet` is absent for an unseen key; lazily expires and
removes an entry strictly older than the TTL (30 minutes); otherwise
returns the stored value and re-promotes the entry to the
most-recently-used end. An entry set at time T is still retrievable at
T + TTL − ε and absent at T + TTL + ε, for every ε > 0. -/
theorem claim_C7_cacheGet :
    (∀ (K V : Type) [DecidableEq K] (c : CacheMap K V) (k : K) (now : ℤ),
      mapGet c k = none → cacheGet c k now = (none, c)) ∧
    (∀ (K V : Type) [DecidableEq K] (c : CacheMap K V) (k : K) (now : ℤ)
      (e : CacheEntry V), mapGet c k = some e → TTL_MS < now - e.timestamp →
      cacheGet c k now = (none, mapDelete c k)) ∧
    (∀ (K V : Type) [DecidableEq K] (c : CacheMap K V) (k : K) (now : ℤ)
      (e : CacheEntry V), mapGet c k = some e → now - e.timestamp ≤ TTL_MS →
      cacheGet c k now = (some e.value, mapDelete c k ++ [(k, e)])) ∧
    (∀ (K V : Type) [DecidableEq K] (c : CacheMap K V) (k : K) (v : V) (T ε : ℤ),
      0 < ε →
      (cacheGet (cacheSet c k v T) k (T + TTL_MS - ε)).1 = some v ∧
      (cacheGet (cacheSet c k v T) k (T + TTL_MS + ε)).1 = none) ∧
    TTL_MS = 30 * 60 * 1000 := by
  refine ⟨?_, ?_, ?_, ?_, rfl⟩
  · intro K V _ c k now h
    simp [cacheGet, h]
  · intro K V _ c k now e h hexp
    simp [cacheGet, h, hexp]
  · intro K V _ c k now e h hfresh
    simp [cacheGet, h, not_lt.mpr hfresh]
  · intro K V _ c k v T ε hε
    have hget := mapGet_cacheSet c k v T
    constructor
    · have hcond : ¬ TTL_MS < (T + TTL_MS - ε) - T := by omega
      simp [cacheGet, hget, hcond]
    · have hcond : TTL_MS < (T + TTL_MS + ε) - T := by omega
      simp [cacheGet, hget, hcond]

/-- Witness for C7 at a concrete single-entry cache. -/
theorem claim_C7_cacheGet_witness :
    (cacheGet (cacheSet ([] : CacheMap String ℕ) "k" 7 100) "k" (100 + TTL_MS - 1)).1
        = some 7 ∧
    (cacheGet (cacheSet ([] : CacheMap String ℕ) "k" 7 100) "k" (100 + TTL_MS + 1)).1
        = none :=
  claim_C7_cacheGet.2.2.2.1 String ℕ [] "k" 7 100 1 (by decide)

/-- C6: the query cache never exceeds the 500-entry capacity: `set`
deletes the key first and re-inserts at the most-recently-used end; below
capacity nothing is evicted; and at capacity exactly the first
(least-recently-used) entry of map iteration order is evicted. An entry
promoted by a read just before an overflowing insert of a fresh key
survives that eviction while the entry that was first is the one
removed. -/
theorem claim_C6_cacheLRU :
    (∀ (K V : Type) [DecidableEq K] (c : CacheMap K V) (k : K) (v : V) (now : ℤ),
      c.length ≤ MAX_ENTRIES → (cacheSet c k v now).length ≤ MAX_ENTRIES) ∧
    (∀ (K V : Type) [DecidableEq K] (c : CacheMap K V) (k : K) (v : V) (now : ℤ),
      (cacheSet c k v now).getLast? = some (k, ⟨v, now⟩)) ∧
    (∀ (K V : Type) [DecidableEq K] (c : CacheMap K V) (k : K) (v : V) (now : ℤ),
      (mapDelete c k).length < MAX_ENTRIES →
      cacheSet c k v now = mapDelete c k ++ [(k, ⟨v, now⟩)]) ∧
    (∀ (K V : Type) [DecidableEq K] (k0 kr knew : K) (e0 er : CacheEntry V)
      (rest : CacheMap K V) (v : V) (now1 now2 : ℤ),
      (((k0, e0) :: rest).map Prod.fst).Nodup →
      ((k0, e0) :: rest).length = MAX_ENTRIES →
      mapGet ((k0, e0) :: rest) kr = some er →
      now1 - er.timestamp ≤ TTL_MS →
      kr ≠ k0 →
      knew ∉ ((k0, e0) :: rest).map Prod.fst →
      kr ∈ (cacheSet (cacheGet ((k0, e0) :: rest) kr now1).2 knew v now2).map Prod.fst ∧
      k0 ∉ (cacheSet (cacheGet ((k0, e0) :: rest) kr now1).2 knew v now2).map Prod.fst ∧
      (cacheSet (cacheGet ((k0, e0) :: rest) kr now1).2 knew v now2).length
        = MAX_ENTRIES) := by
  refine ⟨?_, ?_, ?_, ?_⟩
  · intro K V _ c k v now hlen
    simp only [cacheSet]
    by_cases hcap : MAX_ENTRIES ≤ (mapDelete c k).length
    · rw [if_pos hcap]
      have h1 : (mapDelete c k).length ≤ c.length := List.length_filter_le _ _
      cases hc1 : mapDelete c k with
      | nil => rw [hc1] at hcap; simp [MAX_ENTRIES] at hcap
      | cons q t =>
        have h2 := length_cacheEvict_cons q t
        have h3 : (q :: t).length ≤ MAX_ENTRIES := by
          rw [← hc1]; exact le_trans h1 hlen
        simp only [List.length_append, List.length_cons, List.length_nil] at h3 ⊢
        omega
    · rw [if_neg hcap]
      simp only [List.length_append, List.length_cons, List.length_nil]
      omega
  · intro K V _ c k v now
    exact List.getLast?_concat _
  · intro K V _ c k v now h
    simp only [cacheSet]
    rw [if_neg (not_le.mpr h)]
  · intro K V _ k0 kr knew e0 er rest v now1 now2 hnd hlen hget hfresh hkr0 hnew
    have hc' : (cacheGet ((k0, e0) :: rest) kr now1).2
        = mapDelete ((k0, e0) :: rest) kr ++ [(kr, er)] := by
      simp [cacheGet, hget, not_lt.mpr hfresh]
    have hkrmem : kr ∈ ((k0, e0) :: rest).map Prod.fst := mapGet_mem hget
    have hkrrest : kr ∈ rest.map Prod.fst := by
      simp only [List.map_cons, List.mem_cons] at hkrmem
      rcases hkrmem with h | h
      · exact absurd h hkr0
      · exact h
    have hnd' : k0 ∉ rest.map Prod.fst ∧ (rest.map Prod.fst).Nodup := by
      simpa [List.nodup_cons] using hnd
    have hdelc : mapDelete ((k0, e0) :: rest) kr = (k0, e0) :: mapDelete rest kr := by
      simp only [mapDelete, List.filter_cons]
      rw [if_pos (by simpa using (Ne.symm hkr0 : k0 ≠ kr))]
    have hlenrest : (mapDelete rest kr).length + 1 = rest.length :=
      length_mapDelete_nodup hnd'.2 hkrrest
    have hc'2 : (cacheGet ((k0, e0) :: rest) kr now1).2
        = (k0, e0) :: (mapDelete rest kr ++ [(kr, er)]) := by
      rw [hc', hdelc]; rfl
    have hk0tail : k0 ∉ (mapDelete rest kr ++ [(kr, er)]).map Prod.fst := by
      intro hmem
      simp only [List.map_append, List.map_cons, List.map_nil, List.mem_append,
        List.mem_cons, List.not_mem_nil, or_false] at hmem
      rcases hmem with h | h
      · exact hnd'.1 (keys_mapDelete_subset h)
      · exact hkr0 h.symm
    have hknew' : knew ∉ ((k0, e0) :: (mapDelete rest kr ++ [(kr, er)])).map Prod.fst := by
      intro hmem
      apply hnew
      simp only [List.map_cons, List.map_append, List.map_nil, List.mem_cons,
        List.mem_append, List.not_mem_nil, or_false] at hmem ⊢
      rcases hmem with h | h
      · exact Or.inl h
      · rcases h with h | h
        · exact Or.inr (keys_mapDelete_subset h)
        · exact Or.inr (h ▸ hkrrest)
    have hdelknew : mapDelete ((k0, e0) :: (mapDelete rest kr ++ [(kr, er)])) knew
        = (k0, e0) :: (mapDelete rest kr ++ [(kr, er)]) :=
      mapDelete_not_mem hknew'
    have hlenrest500 : rest.length + 1 = MAX_ENTRIES := by
      simpa using hlen
    have hlenc' : ((k0, e0) :: (mapDelete rest kr ++ [(kr, er)])).length
        = MAX_ENTRIES := by
      simp only [List.length_cons, List.length_append, List.length_nil]
      omega
    have hevict : cacheEvict ((k0, e0) :: (mapDelete rest kr ++ [(kr, er)]))
        = mapDelete rest kr ++ [(kr, er)] := by
      show mapDelete ((k0, e0) :: (mapDelete rest kr ++ [(kr, er)])) k0
        = mapDelete rest kr ++ [(kr, er)]
      simp only [mapDelete, List.filter_cons]
      rw [if_neg (by simp)]
      exact mapDelete_not_mem hk0tail
    have hfinal : cacheSet ((k0, e0) :: (mapDelete rest kr ++ [(kr, er)])) knew v now2
        = (mapDelete rest kr ++ [(kr, er)]) ++ [(knew, ⟨v, now2⟩)] := by
      simp only [cacheSet, hdelknew]
      rw [if_pos (le_of_eq hlenc'.symm), hevict]
    rw [hc'2, hfinal]
    refine ⟨?_, ?_, ?_⟩
    · simp
    · intro hmem
      simp only [List.map_append, List.map_cons, List.map_nil, List.mem_append,
        List.mem_cons, List.not_mem_nil, or_false] at hmem
      rcases hmem with h | h
      · exact hk0tail (by
          simp only [List.map_append, List.map_cons, List.map_nil, List.mem_append,
            List.mem_cons, List.not_mem_nil, or_false]
          exact h)
      · apply hnew
        simp only [List.map_cons, List.mem_cons]
        exact Or.inl h.symm
    · simp only [List.length_append, List.length_cons, List.length_nil]
      omega

theorem c6c_keys : c6c.map Prod.fst = List.range 500 := by
  rw [List.range_succ_eq_map]
  simp only [c6c, c6rest, List.map_cons, List.map_map]
  rfl

theorem c6c_nodup : (c6c.map Prod.fst).Nodup := c6c_keys ▸ List.nodup_range 500

theorem c6c_fresh : 1000 ∉ c6c.map Prod.fst := by
  rw [c6c_keys]
  simp

theorem c6c_len : c6c.length = MAX_ENTRIES := by
  simp [c6c, c6rest, MAX_ENTRIES]

theorem c6c_get : mapGet c6c 1 = some ⟨0, 0⟩ := by
  simp only [c6c, c6rest]
  rw [show (499 : ℕ) = 498 + 1 from rfl, List.range_succ_eq_map]
  simp [mapGet, List.find?_cons]

/-- Witness for C6: the 500-entry cache `c6c` with key 0 least recently
used; key 1 is read (promoting it) and then the fresh key 1000 is
inserted; key 1 survives, key 0 is evicted, and the size stays 500. -/
theorem claim_C6_cacheLRU_witness :
    1 ∈ (cacheSet (cacheGet c6c 1 0).2 1000 42 5).map Prod.fst ∧
    0 ∉ (cacheSet (cacheGet c6c 1 0).2 1000 42 5).map Prod.fst ∧
    (cacheSet (cacheGet c6c 1 0).2 1000 42 5).length = MAX_ENTRIES :=
  claim_C6_cacheLRU.2.2.2 ℕ ℕ 0 1 1000 ⟨0, 0⟩ ⟨0, 0⟩ c6rest 42 0 5
    c6c_nodup c6c_len c6c_get (by decide) (by decide) c6c_fresh

/-- Witness for C10 at concrete inputs. -/
theorem claim_C10_frame_witness :
    (fuzzyCorrectFilters approxC3 [filterC3] (some taxC3)).length = 1 := by
  simpa using (claim_C10_frame approxC3 (some taxC3) [filterC3]).1

/-- C8: `checkRateLimit` starts a fresh window with count 1 and allows on
a first request for a key or once the window has elapsed; otherwise it
increments the count, denying with remaining 0 once the count exceeds the
maximum and allowing with remaining = maxRequests − count below it. Ten
requests within one window at maxRequests = 10 are all allowed, the
eleventh is denied, and a request after the window elapses is allowed
again with a fresh count. -/
theorem claim_C8_rateLimit :
    (∀ (w : RLMap) (k : String) (mx wm now : ℤ), rlFind w k = none →
      checkRateLimit w k mx wm now = (⟨true, mx - 1⟩, rlSet w k ⟨now, 1⟩)) ∧
    (∀ (w : RLMap) (k : String) (mx wm now : ℤ) (e : RLEntry),
      rlFind w k = some e → wm ≤ now - e.windowStart →
      checkRateLimit w k mx wm now = (⟨true, mx - 1⟩, rlSet w k ⟨now, 1⟩)) ∧
    (∀ (w : RLMap) (k : String) (mx wm now : ℤ) (e : RLEntry),
      rlFind w k = some e → now - e.windowStart < wm → mx < e.count + 1 →
      checkRateLimit w k mx wm now
        = (⟨false, 0⟩, rlSet w k ⟨e.windowStart, e.count + 1⟩)) ∧
    (∀ (w : RLMap) (k : String) (mx wm now : ℤ) (e : RLEntry),
      rlFind w k = some e → now - e.windowStart < wm → e.count + 1 ≤ mx →
      checkRateLimit w k mx wm now
        = (⟨true, mx - (e.count + 1)⟩, rlSet w k ⟨e.windowStart, e.count + 1⟩)) ∧
    runRateLimit "shop" 10 60000 (List.replicate 11 0 ++ [60000]) []
      = List.replicate 10 true ++ [false, true] := by
  refine ⟨?_, ?_, ?_, ?_, by decide⟩
  · intro w k mx wm now h
    simp [checkRateLimit, h]
  · intro w k mx wm now e h hw
    simp [checkRateLimit, h, hw]
  · intro w k mx wm now e h hw hc
    simp [checkRateLimit, h, not_le.mpr hw, hc]
  · intro w k mx wm now e h hw hc
    simp [checkRateLimit, h, not_le.mpr hw, not_lt.mpr hc]

/-- Witness for C8 at concrete inputs: a first request, and a denied
request on a full window. -/
theorem claim_C8_rateLimit_witness :
    checkRateLimit [] "a" 10 60000 0 = (⟨true, 9⟩, [("a", ⟨0, 1⟩)]) ∧
    checkRateLimit [("a", ⟨0, 10⟩)] "a" 10 60000 5
      = (⟨false, 0⟩, [("a", ⟨0, 11⟩)]) := by
  constructor
  · exact (claim_C8_rateLimit.1 [] "a" 10 60000 0 (by decide)).trans (by decide)
  · exact (claim_C8_rateLimit.2.2.1 [("a", ⟨0, 10⟩)] "a" 10 60000 5 ⟨0, 10⟩
      (by decide) (by decide) (by decide)).trans (by decide)

/-- C9 counterexample: with window duration 10 000 ms, an entry idle for
50 000 ms — more than twice that window duration — survives the sweep,
because the sweep threshold is the fixed constant 120 000 ms, not
2 × windowMs. -/
theorem claim_C9_sweep_counterexample :
    cleanupWindows [("shop", ⟨0, 3⟩)] 50000 = [("shop", ⟨0, 3⟩)] ∧
    (2 * 10000 : ℤ) < 50000 - 0 := by decide

/-- C9 (amended): the periodic sweep removes exactly the window entries
whose start is more than 120 000 ms old — twice the 60 000 ms window the
API route passes to `checkRateLimit`, but a fixed constant independent of
the windowMs argument — and every younger entry survives. -/
theorem claim_C9_sweep :
    ∀ (w : RLMap) (now : ℤ) (p : String × RLEntry),
      p ∈ cleanupWindows w now ↔ p ∈ w ∧ now - p.2.windowStart ≤ 120000 := by
  intro w now p
  simp [cleanupWindows, List.mem_filter]

/-- Witness for C9 (amended) at a concrete two-entry map. -/
theorem claim_C9_sweep_witness :
    ("new", (⟨60000, 1⟩ : RLEntry)) ∈
      cleanupWindows [("old", ⟨0, 5⟩), ("new", ⟨60000, 1⟩)] 120150 ∧
    ("old", (⟨0, 5⟩ : RLEntry)) ∉
      cleanupWindows [("old", ⟨0, 5⟩), ("new", ⟨60000, 1⟩)] 120150 := by
  constructor
  · exact (claim_C9_sweep _ _ _).mpr ⟨by decide, by decide⟩
  · intro h
    exact absurd ((claim_C9_sweep _ _ _).mp h).2 (by decide)

end SmartFilter
